import Mathlib

/-!
Verification development for the Adhera medication-adherence tracker
(`src/app.py`).  The engine works at wall-clock minute granularity: every
stored time is an `HH:MM` string and every comparison in the source is made
on `hour*60 + minute` values or on `datetime` values built from such pairs.
We therefore model an *instant* as an integer number of minutes counted from
midnight of an arbitrary day 0:

* day number of an instant `n`        : `n.ediv 1440`
* minute-of-day of an instant `n`     : `n.emod 1440`   (= `hour*60 + minute`)

Calendar dates (ISO strings in the source, compared only for equality) are
modelled by their integer day number; the encoding is injective, so equality
of ISO strings coincides with equality of day numbers.  Medicine names,
notes and `HH:MM` strings are kept as strings.
-/

/-! ### Python string primitives

`int(...)` and `str.split(":")` as used by the source, re-implemented
structurally on `List Char` (digit-group underscores and non-ASCII
whitespace accepted by Python are not modelled; no claim depends on them).
-/

/-- Characters stripped by Python `str.strip()` (ASCII fragment). -/
def isPySpace (c : Char) : Bool :=
  c == ' ' || c == '\t' || c == '\n' || c == '\r' || c == '\x0b' || c == '\x0c'

/-- Python `str.strip()` on a character list. -/
def stripChars (l : List Char) : List Char :=
  ((l.dropWhile isPySpace).reverse.dropWhile isPySpace).reverse

/-- Python `str.strip()`. -/
def pyStrip (s : String) : String :=
  ⟨stripChars s.data⟩

/-- Value of a non-empty all-digit character list, else `none`. -/
def digitsVal? (l : List Char) : Option Nat :=
  if l.isEmpty then none
  else if l.all Char.isDigit then
    some (l.foldl (fun a c => 10 * a + (c.toNat - 48)) 0)
  else none

/-- Python `int(str)`: optional surrounding whitespace, optional sign,
then a non-empty digit string; anything else raises (returns `none`). -/
def pyInt? (l : List Char) : Option Int :=
  match stripChars l with
  | '-' :: rest => (digitsVal? rest).map (fun n => -(n : Int))
  | '+' :: rest => (digitsVal? rest).map (fun n => (n : Int))
  | t => (digitsVal? t).map (fun n => (n : Int))

/-- Python `str.split(sep)` for a one-character separator: keeps empty
fields, yields `[""]` on the empty string. -/
def splitOnChar (c : Char) : List Char → List (List Char)
  | [] => [[]]
  | x :: xs =>
    match splitOnChar c xs with
    | [] => [[]]
    | g :: gs => if x == c then [] :: g :: gs else (x :: g) :: gs

/-- `hh, mm = map(int, s.split(":"))` — succeeds exactly when the string has
two `:`-separated fields and both parse with Python `int`. -/
def pyParseTime (s : String) : Option (Int × Int) :=
  match (splitOnChar ':' s.data).map pyInt? with
  | [some hh, some mm] => some (hh, mm)
  | _ => none

/-- A valid `HH:MM` time in the sense of the specification: it parses and
the hour/minute are in range. -/
def validHHMM (s : String) : Prop :=
  ∃ hh mm, pyParseTime s = some (hh, mm) ∧
    0 ≤ hh ∧ hh ≤ 23 ∧ 0 ≤ mm ∧ mm ≤ 59

/-! ### Data model (`medicines`, `history`, `next_id` of the session state) -/

/-- One medicine entry (`{"id", "name", "sched_time", "notes"}`). -/
structure Medicine where
  id : Int
  name : String
  sched_time : String
  notes : String
  deriving DecidableEq

/-- One history entry
(`{"date", "name", "sched_time", "taken", "taken_time"}`); `date` is the
day number of the calendar date the event pertains to. -/
structure DoseEvent where
  date : Int
  name : String
  sched_time : String
  taken : Bool
  taken_time : String
  deriving DecidableEq

/-- The per-user record persisted as one JSON object. -/
structure UserRecord where
  medicines : List Medicine
  history : List DoseEvent
  next_id : Int
  deriving DecidableEq

/-- The key `(date, name, sched_time)` test used by every history lookup in
the source (`h["date"] == d and h["name"] == n and h["sched_time"] == s`). -/
def evKeyB (d : Int) (nm sc : String) (e : DoseEvent) : Bool :=
  e.date == d && e.name == nm && e.sched_time == sc

/-- At most one `DoseEvent` per `(date, medicineName, scheduledTime)` key. -/
def histInv (h : List DoseEvent) : Prop :=
  ∀ d nm sc, h.countP (evKeyB d nm sc) ≤ 1

/-! ### Mutation layer (`add_medicine`, `delete_medicine`, `mark_taken`,
`mark_missed` of `src/app.py`) -/

/-- `add_medicine(name, sched_time_str, notes)`: unconditionally appends a
medicine carrying the current `next_id` (name and notes stripped) and
increments the counter.  The source performs no validation here. -/
def add_medicine (r : UserRecord) (name sched_time_str notes : String) :
    UserRecord :=
  { medicines :=
      r.medicines ++
        [{ id := r.next_id, name := pyStrip name,
           sched_time := sched_time_str, notes := pyStrip notes }],
    history := r.history,
    next_id := r.next_id + 1 }

/-- `delete_medicine(med_id)`: keeps the medicines whose `id` differs. -/
def delete_medicine (r : UserRecord) (med_id : Int) : UserRecord :=
  { r with medicines := r.medicines.filter (fun m => m.id != med_id) }

/-- `mark_taken(name, sched_time_str)` on the history list: update the first
event with today's key in place (`taken := true`, `taken_time := now`), or
append a fresh one if none exists.  `today` is passed as the day number and
`now_str` as the `HH:MM` wall-clock string the source obtains from
`datetime.now()`. -/
def mark_taken (today : Int) (now_str nm sc : String) :
    List DoseEvent → List DoseEvent
  | [] => [{ date := today, name := nm, sched_time := sc,
             taken := true, taken_time := now_str }]
  | e :: rest =>
    if evKeyB today nm sc e then
      { e with taken := true, taken_time := now_str } :: rest
    else
      e :: mark_taken today now_str nm sc rest

/-- `mark_missed(name, sched_time_str)` on the history list: append a
`taken = false` event with empty `taken_time` only when no event with
today's key exists; otherwise leave the history unchanged. -/
def mark_missed (today : Int) (nm sc : String) :
    List DoseEvent → List DoseEvent
  | [] => [{ date := today, name := nm, sched_time := sc,
             taken := false, taken_time := "" }]
  | e :: rest =>
    if evKeyB today nm sc e then e :: rest
    else e :: mark_missed today nm sc rest

/-! ### Dose-status classification (Today's Checklist, `src/app.py`
lines 431–454) -/

/-- The four visual states of the checklist. -/
inductive DoseStatus where
  | taken (taken_time : String)
  | missed
  | upcoming
  | dueSoon
  deriving DecidableEq

/-- Inline classification of one medicine in the checklist: an explicit
recorded event wins regardless of clock time; otherwise the minute windows
around the scheduled time decide.  A scheduled time that fails to parse
falls back to `sched_mins = 0`, as in the source's `except` branch. -/
def classifyDoseStatus (med : Medicine) (history : List DoseEvent)
    (now : Int) : DoseStatus :=
  let now_mins : Int := now.emod 1440
  let sched_mins : Int :=
    match pyParseTime med.sched_time with
    | some (hh, mm) => hh * 60 + mm
    | none => 0
  match history.find? (evKeyB (now.ediv 1440) med.name med.sched_time) with
  | some r => if r.taken then .taken r.taken_time else .missed
  | none =>
    if now_mins < sched_mins - 15 then .upcoming
    else if sched_mins - 15 ≤ now_mins ∧ now_mins ≤ sched_mins + 30 then
      .dueSoon
    else .missed

/-! ### Next-dose selection (`next_scheduled_dose`, `src/app.py` 232–249) -/

/-- Today's occurrence of an `(hh, mm)` schedule relative to the instant
`now` (`datetime.combine(date.today(), min.time()) + hh h + mm min`). -/
def today_dt (now hh mm : Int) : Int :=
  now.ediv 1440 * 1440 + (hh * 60 + mm)

/-- The projected instant of a schedule: today's occurrence, or tomorrow's
when today's has already passed (`today_dt >= now` test of the source). -/
def projectInstant (now hh mm : Int) : Int :=
  if now ≤ today_dt now hh mm then today_dt now hh mm
  else today_dt now hh mm + 1440

/-- One fold step keeping the earlier of two `(medicine, instant)` pairs;
on an equal instant the accumulator (the element seen first) is kept, which
is exactly what Python's stable `sort` followed by `upcoming[0]` returns. -/
def selStep (a y : Medicine × Int) : Medicine × Int :=
  if y.2 < a.2 then y else a

/-- `next_scheduled_dose(now)`: medicines whose `sched_time` fails
`map(int, ... .split(":"))` are skipped (`except: continue`); the rest are
projected and the first pair with the minimum instant is returned. -/
def next_scheduled_dose (now : Int) (meds : List Medicine) :
    Option (Medicine × Int) :=
  let upcoming := meds.filterMap (fun med =>
    (pyParseTime med.sched_time).map
      (fun p => (med, projectInstant now p.1 p.2)))
  match upcoming with
  | [] => none
  | x :: xs => some (xs.foldl selStep x)

/-! ### Adherence statistics (`daily_adherence_series`, `src/app.py`
194–213, and the inline weekly computation, 482–498) -/

/-- Number of scheduled medicines with a matching `taken` event on day `d`:
the source filters the history by date and then asks, for each medicine,
whether any record matches on name and scheduled time with `taken` set. -/
def takenCount (meds : List Medicine) (history : List DoseEvent)
    (d : Int) : Nat :=
  let records := history.filter (fun h => h.date == d)
  meds.countP (fun s =>
    records.any (fun r =>
      r.name == s.name && r.sched_time == s.sched_time && r.taken))

/-- Round half to even at integer precision (the tie rule of Python's
`round`, applied here to the exact rational model of the computation). -/
def rnd_half_even (x : ℚ) : ℤ :=
  let n := Int.floor x
  let frac := x - n
  if frac < 1 / 2 then n
  else if 1 / 2 < frac then n + 1
  else if n % 2 = 0 then n else n + 1

/-- `round(x, 1)` on the exact rational model. -/
def round1 (x : ℚ) : ℚ :=
  (rnd_half_even (10 * x) : ℚ) / 10

/-- `daily_adherence_series(days_back)`: the `days_back` calendar days
ending today (oldest first), each paired with 100.0 when no medicine is
scheduled and with `taken_count / scheduled_count * 100` otherwise. -/
def daily_adherence_series (meds : List Medicine) (history : List DoseEvent)
    (days_back : Nat) (today : Int) : List (Int × ℚ) :=
  let dates := (List.range days_back).map
    (fun i => today - ((days_back - 1 - i : Nat) : Int))
  dates.map (fun d =>
    if meds.length = 0 then (d, 100)
    else (d, ((takenCount meds history d : ℚ) / (meds.length : ℚ)) * 100))

/-- The inline weekly-adherence computation of the right column: 100.0 for
an empty medicine list, otherwise the per-day ratios over the seven days
ending today, summed, divided by the number of days, times 100, rounded to
one decimal. -/
def weeklyAdherence (meds : List Medicine) (history : List DoseEvent)
    (today : Int) : ℚ :=
  if meds = [] then 100
  else
    let days := (List.range 7).map (fun i : Nat => today - 6 + (i : Int))
    let scores := days.map (fun d =>
      (takenCount meds history d : ℚ) / (meds.length : ℚ))
    round1 (scores.sum / (scores.length : ℚ) * 100)

/-- The matching rule in the specification's words: a medicine is satisfied
on day `d` when some history event agrees with it on date, name and
scheduled time and has `taken = true`. -/
def takenCountClaim (meds : List Medicine) (history : List DoseEvent)
    (d : Int) : Nat :=
  meds.countP (fun s =>
    history.any (fun r =>
      r.date == d && r.name == s.name && r.sched_time == s.sched_time &&
        r.taken))

/-- The weekly adherence as the claim states it: the arithmetic mean, over
the seven calendar days ending at the reference date inclusive, of the
per-day percentage `takenCount / total * 100`, rounded to one decimal. -/
def weeklyAdherenceClaim (meds : List Medicine) (history : List DoseEvent)
    (today : Int) : ℚ :=
  round1 ((((List.range 7).map (fun i : Nat =>
    ((takenCountClaim meds history (today - 6 + (i : Int)) : ℚ) /
      (meds.length : ℚ)) * 100)).sum) / 7)

/-! ### Helper lemmas -/

/-- The boolean key test agrees with the propositional key description. -/
@[simp] lemma evKeyB_eq_true {d : Int} {nm sc : String} {e : DoseEvent} :
    evKeyB d nm sc e = true ↔
      e.date = d ∧ e.name = nm ∧ e.sched_time = sc := by
  simp [evKeyB, and_assoc]

/-- Updating `taken`/`taken_time` leaves the event's key unchanged. -/
@[simp] lemma evKeyB_update {d : Int} {nm sc : String} {e : DoseEvent}
    {b : Bool} {t : String} :
    evKeyB d nm sc { e with taken := b, taken_time := t } =
      evKeyB d nm sc e := rfl

/-- The empty history trivially satisfies the one-event-per-key invariant. -/
lemma histInv_nil : histInv [] := by
  intro d nm sc
  simp [List.countP_nil]

/-! ### Claim C3 -/

/-- Claim C3 (amended): `add_medicine` performs no validation of its own —
for every name, time and notes (valid or not) it appends one medicine
carrying `id = next_id`, the stripped name and notes and the given time,
keeps the history and honours every previously stored medicine, and
increments `next_id`.  (Empty names and malformed times are rejected only
by the callers: the sidebar form and the CSV importer.) -/
theorem add_medicine_always_appends (r : UserRecord)
    (name sched_time_str notes : String) :
    (add_medicine r name sched_time_str notes).medicines.length =
        r.medicines.length + 1 ∧
    (add_medicine r name sched_time_str notes).medicines.getLast? =
        some { id := r.next_id, name := pyStrip name,
               sched_time := sched_time_str, notes := pyStrip notes } ∧
    (add_medicine r name sched_time_str notes).next_id = r.next_id + 1 ∧
    (add_medicine r name sched_time_str notes).history = r.history ∧
    ∀ m ∈ r.medicines,
      m ∈ (add_medicine r name sched_time_str notes).medicines := by
  refine ⟨by simp [add_medicine], ?_, rfl, rfl, ?_⟩
  · exact List.getLast?_concat _
  · intro m hm
    exact List.mem_append_left _ hm

/-- Counterexample to claim C3 as stated: a name consisting of blanks
strips to the empty string and `"99:99"` is not a valid `HH:MM` time, yet
`add_medicine` does not fail — it appends a medicine anyway. -/
theorem add_medicine_claim_cex :
    pyStrip "   " = "" ∧
    ¬ validHHMM "99:99" ∧
    (add_medicine { medicines := [], history := [], next_id := 1 }
        "   " "99:99" "").medicines ≠
      ({ medicines := [], history := [], next_id := 1 } :
        UserRecord).medicines := by
  refine ⟨by decide, ?_, by decide⟩
  rintro ⟨hh, mm, hp, _, h23, _, _⟩
  rw [show pyParseTime "99:99" = some ((99 : Int), (99 : Int)) from by decide]
    at hp
  cases hp
  omega

/-! ### Claim C10 -/

/-- Claim C10: `delete_medicine` removes exactly the medicines whose `id`
equals the argument and nothing else: the survivors form a sublist of the
original list (same order, same fields), none of them carries the deleted
id, every medicine with a different id survives, and the history and the
`next_id` counter are untouched (so dose events of a deleted medicine stay
in the history). -/
theorem delete_medicine_frame (r : UserRecord) (med_id : Int) :
    (delete_medicine r med_id).medicines.Sublist r.medicines ∧
    (∀ m ∈ (delete_medicine r med_id).medicines, m.id ≠ med_id) ∧
    (∀ m ∈ r.medicines, m.id ≠ med_id →
      m ∈ (delete_medicine r med_id).medicines) ∧
    (delete_medicine r med_id).history = r.history ∧
    (delete_medicine r med_id).next_id = r.next_id := by
  refine ⟨List.filter_sublist _, ?_, ?_, rfl, rfl⟩
  · intro m hm
    have := (List.mem_filter.mp hm).2
    simpa using this
  · intro m hm hne
    exact List.mem_filter.mpr ⟨hm, by simpa using hne⟩

/-- Concrete instance of claim C10 at a two-medicine record. -/
theorem delete_medicine_frame_witness :
    (delete_medicine
        { medicines := [{ id := 1, name := "A", sched_time := "08:00",
                          notes := "" },
                        { id := 2, name := "B", sched_time := "09:00",
                          notes := "" }],
          history := [], next_id := 3 } 1).history = [] ∧
    (delete_medicine
        { medicines := [{ id := 1, name := "A", sched_time := "08:00",
                          notes := "" },
                        { id := 2, name := "B", sched_time := "09:00",
                          notes := "" }],
          history := [], next_id := 3 } 1).next_id = 3 :=
  ⟨(delete_medicine_frame _ 1).2.2.2.1, (delete_medicine_frame _ 1).2.2.2.2⟩

/-! ### Claim C5 -/

/-- Claim C5: with an empty medicine list the weekly adherence is exactly
100 and every percentage in the daily adherence series is exactly 100,
whatever the history, the window length and the reference date. -/
theorem empty_medicines_full_adherence (history : List DoseEvent)
    (days_back : Nat) (today : Int) :
    weeklyAdherence [] history today = 100 ∧
    (daily_adherence_series [] history days_back today).all
      (fun p => decide (p.2 = 100)) = true := by
  constructor
  · simp [weeklyAdherence]
  · simp [daily_adherence_series, List.all_eq_true]

/-! ### Claim C9 -/

/-- Claim C9: `mark_missed` appends today's `taken = false` event with an
empty `taken_time` exactly when no event for `(today, name, time)` exists
yet; when one already exists — taken or missed — the history is returned
unchanged, so an already-taken dose is never downgraded. -/
theorem mark_missed_no_downgrade (h : List DoseEvent) (today : Int)
    (nm sc : String) :
    ((∀ e ∈ h, ¬(e.date = today ∧ e.name = nm ∧ e.sched_time = sc)) →
      mark_missed today nm sc h =
        h ++ [{ date := today, name := nm, sched_time := sc,
                taken := false, taken_time := "" }]) ∧
    ((∃ e ∈ h, e.date = today ∧ e.name = nm ∧ e.sched_time = sc) →
      mark_missed today nm sc h = h) := by
  induction h with
  | nil =>
    refine ⟨fun _ => rfl, ?_⟩
    rintro ⟨e, he, -⟩
    cases he
  | cons e rest ih =>
    constructor
    · intro hall
      have hkey : evKeyB today nm sc e = false := by
        have h1 := hall e (List.mem_cons_self e rest)
        rw [Bool.eq_false_iff]
        intro hc
        exact h1 (evKeyB_eq_true.mp hc)
      simp only [mark_missed, hkey, Bool.false_eq_true, if_false,
        List.cons_append]
      rw [ih.1 (fun x hx => hall x (List.mem_cons_of_mem _ hx))]
    · rintro ⟨x, hx, hxk⟩
      by_cases hkey : evKeyB today nm sc e = true
      · simp only [mark_missed, hkey, if_true]
      · rcases List.mem_cons.mp hx with rfl | hx2
        · exact absurd (evKeyB_eq_true.mpr hxk) hkey
        · have hkeyf : evKeyB today nm sc e = false := Bool.eq_false_iff.mpr hkey
          simp only [mark_missed, hkeyf, Bool.false_eq_true, if_false]
          rw [ih.2 ⟨x, hx2, hxk⟩]

/-- Concrete instance of claim C9: an already-taken dose is not
overwritten by `mark_missed`. -/
theorem mark_missed_no_downgrade_witness :
    mark_missed 0 "A" "08:00"
        [{ date := 0, name := "A", sched_time := "08:00",
           taken := true, taken_time := "08:01" }] =
      [{ date := 0, name := "A", sched_time := "08:00",
         taken := true, taken_time := "08:01" }] :=
  (mark_missed_no_downgrade _ 0 "A" "08:00").2
    ⟨{ date := 0, name := "A", sched_time := "08:00",
       taken := true, taken_time := "08:01" },
     List.mem_singleton.mpr rfl, rfl, rfl, rfl⟩

/-! ### Claim C1 -/

/-- Claim C1: for a medicine with a valid `HH:MM` scheduled time and no
recorded event for `(today, name, scheduledTime)`, the checklist reports
`Upcoming` when the clock is more than 15 minutes before the scheduled
time, `Due now/soon` within the window from 15 minutes before to
30 minutes after it, and `Missed` more than 30 minutes past it. -/
theorem classify_windows (med : Medicine) (history : List DoseEvent)
    (now hh mm : Int)
    (hp : pyParseTime med.sched_time = some (hh, mm))
    (_hb : 0 ≤ hh ∧ hh ≤ 23 ∧ 0 ≤ mm ∧ mm ≤ 59)
    (hno : ∀ e ∈ history,
      ¬(e.date = now.ediv 1440 ∧ e.name = med.name ∧
          e.sched_time = med.sched_time)) :
    ((hh * 60 + mm) - now.emod 1440 > 15 →
      classifyDoseStatus med history now = .upcoming) ∧
    ((hh * 60 + mm) - 15 ≤ now.emod 1440 ∧
        now.emod 1440 ≤ (hh * 60 + mm) + 30 →
      classifyDoseStatus med history now = .dueSoon) ∧
    (now.emod 1440 - (hh * 60 + mm) > 30 →
      classifyDoseStatus med history now = .missed) := by
  have hfind : history.find?
      (evKeyB (now.ediv 1440) med.name med.sched_time) = none := by
    rw [List.find?_eq_none]
    intro e he hc
    exact hno e he (evKeyB_eq_true.mp hc)
  refine ⟨?_, ?_, ?_⟩ <;> intro hcond <;>
    simp only [classifyDoseStatus, hp, hfind]
  · rw [if_pos (by omega)]
  · rw [if_neg (by omega), if_pos (by omega)]
  · rw [if_neg (by omega), if_neg (by omega)]

/-- Concrete instance of claim C1: Aspirin at 08:00, empty history,
clock at 08:10 (instant 490 of day 0) — reported `Due now/soon`. -/
theorem classify_windows_witness :
    pyParseTime "08:00" = some (8, 0) ∧
    classifyDoseStatus
      { id := 1, name := "Aspirin", sched_time := "08:00", notes := "" }
      [] 490 = .dueSoon :=
  ⟨by decide,
    (classify_windows
        { id := 1, name := "Aspirin", sched_time := "08:00", notes := "" }
        [] 490 8 0 (by decide) (by decide)
        (fun e he => absurd he (List.not_mem_nil e))).2.1 (by decide)⟩

/-! ### Claim C2 -/

/-- Claim C2: when a dose event for `(today, name, scheduledTime)` is
recorded, the checklist ignores the clock entirely: it reports `Taken`
(carrying the event's `taken_time`) when the event has `taken = true` and
`Missed` otherwise, even if the scheduled time is still in the future. -/
theorem classify_recorded (med : Medicine) (history : List DoseEvent)
    (now : Int) (e : DoseEvent)
    (he : e ∈ history)
    (hk : e.date = now.ediv 1440 ∧ e.name = med.name ∧
      e.sched_time = med.sched_time)
    (huniq : ∀ x ∈ history, x.date = now.ediv 1440 → x.name = med.name →
      x.sched_time = med.sched_time → x = e) :
    classifyDoseStatus med history now =
      (if e.taken then DoseStatus.taken e.taken_time
       else DoseStatus.missed) := by
  have hsome : history.find?
      (evKeyB (now.ediv 1440) med.name med.sched_time) = some e := by
    have h1 : (history.find?
        (evKeyB (now.ediv 1440) med.name med.sched_time)).isSome := by
      rw [List.find?_isSome]
      exact ⟨e, he, evKeyB_eq_true.mpr hk⟩
    obtain ⟨x, hx⟩ := Option.isSome_iff_exists.mp h1
    have hxmem := List.mem_of_find?_eq_some hx
    have hxp := evKeyB_eq_true.mp (List.find?_some hx)
    rw [hx, huniq x hxmem hxp.1 hxp.2.1 hxp.2.2]
  simp only [classifyDoseStatus, hsome]

/-- Concrete instance of claim C2: the dose was marked taken at 07:00 and,
although the clock (06:40, instant 400) is still before the 08:00 schedule,
the status is `Taken 07:00`. -/
theorem classify_recorded_witness :
    classifyDoseStatus
      { id := 1, name := "Aspirin", sched_time := "08:00", notes := "" }
      [{ date := 0, name := "Aspirin", sched_time := "08:00",
         taken := true, taken_time := "07:00" }] 400 =
      DoseStatus.taken "07:00" := by
  have h := classify_recorded
    { id := 1, name := "Aspirin", sched_time := "08:00", notes := "" }
    [{ date := 0, name := "Aspirin", sched_time := "08:00",
       taken := true, taken_time := "07:00" }] 400
    { date := 0, name := "Aspirin", sched_time := "08:00",
      taken := true, taken_time := "07:00" }
    (List.mem_singleton.mpr rfl) (by decide)
    (fun x hx _ _ _ => List.mem_singleton.mp hx)
  simpa using h

/-! ### Claim C8 -/

/-- Count of events carrying the upserted key after `mark_taken`: one if
there was none, otherwise unchanged (the first one is updated in place). -/
lemma countP_mark_taken_self (today : Int) (ts nm sc : String)
    (h : List DoseEvent) :
    (mark_taken today ts nm sc h).countP (evKeyB today nm sc) =
      if h.countP (evKeyB today nm sc) = 0 then 1
      else h.countP (evKeyB today nm sc) := by
  induction h with
  | nil => simp [mark_taken, List.countP_cons, evKeyB]
  | cons e rest ih =>
    by_cases hk : evKeyB today nm sc e = true
    · simp only [mark_taken, hk, if_true, List.countP_cons, evKeyB_update]
      rw [if_neg (by omega)]
    · have hkf : evKeyB today nm sc e = false := Bool.eq_false_iff.mpr hk
      simp only [mark_taken, hkf, Bool.false_eq_true, if_false,
        List.countP_cons, ih]
      simp [hkf]

/-- `mark_taken` does not touch events under any other key. -/
lemma countP_mark_taken_other (today : Int) (ts nm sc : String)
    (d : Int) (n s : String)
    (hne : ¬(d = today ∧ n = nm ∧ s = sc)) (h : List DoseEvent) :
    (mark_taken today ts nm sc h).countP (evKeyB d n s) =
      h.countP (evKeyB d n s) := by
  have hnew : evKeyB d n s
      { date := today, name := nm, sched_time := sc,
        taken := true, taken_time := ts } = false := by
    rw [Bool.eq_false_iff]
    intro hc
    obtain ⟨h1, h2, h3⟩ := evKeyB_eq_true.mp hc
    exact hne ⟨h1.symm, h2.symm, h3.symm⟩
  induction h with
  | nil => simp [mark_taken, List.countP_cons, hnew]
  | cons e rest ih =>
    by_cases hk : evKeyB today nm sc e = true
    · simp [mark_taken, hk, List.countP_cons, evKeyB_update]
    · have hkf : evKeyB today nm sc e = false := Bool.eq_false_iff.mpr hk
      simp [mark_taken, hkf, List.countP_cons, ih]

/-- After `mark_taken` on a history respecting the one-event-per-key bound,
exactly one event carries the key, and it is taken at the given time. -/
lemma countP_mark_taken_key_taken (today : Int) (ts nm sc : String)
    (h : List DoseEvent)
    (hle : h.countP (evKeyB today nm sc) ≤ 1) :
    (mark_taken today ts nm sc h).countP
      (fun e => evKeyB today nm sc e && e.taken && (e.taken_time == ts)) =
      1 := by
  induction h with
  | nil => simp [mark_taken, List.countP_cons, evKeyB]
  | cons e rest ih =>
    by_cases hk : evKeyB today nm sc e = true
    · have hr : rest.countP (evKeyB today nm sc) = 0 := by
        rw [List.countP_cons] at hle
        simp only [hk, if_true] at hle
        omega
      have hr2 : rest.countP
          (fun e => evKeyB today nm sc e && e.taken &&
            (e.taken_time == ts)) = 0 := by
        have hmono := List.countP_mono_left
          (l := rest)
          (p := fun e => evKeyB today nm sc e && e.taken &&
            (e.taken_time == ts))
          (q := evKeyB today nm sc)
          (fun x _ hx => by
            simp only [Bool.and_eq_true] at hx
            exact hx.1.1)
        omega
      simp only [mark_taken, hk, if_true, List.countP_cons, hr2,
        evKeyB_update]
      simp [hk]
    · have hkf : evKeyB today nm sc e = false := Bool.eq_false_iff.mpr hk
      have hle2 : rest.countP (evKeyB today nm sc) ≤ 1 := by
        rw [List.countP_cons] at hle
        omega
      simp only [mark_taken, hkf, Bool.false_eq_true, if_false,
        List.countP_cons, ih hle2]
      simp [hkf]

/-- `mark_taken` preserves the one-event-per-key invariant. -/
lemma histInv_mark_taken (today : Int) (ts nm sc : String)
    (h : List DoseEvent) (hinv : histInv h) :
    histInv (mark_taken today ts nm sc h) := by
  intro d n s
  by_cases hdns : d = today ∧ n = nm ∧ s = sc
  · obtain ⟨rfl, rfl, rfl⟩ := hdns
    rw [countP_mark_taken_self]
    have := hinv d n s
    split <;> omega
  · rw [countP_mark_taken_other today ts nm sc d n s hdns]
    exact hinv d n s

/-- Claim C8: on a history satisfying the one-event-per-key invariant,
calling `mark_taken` twice for the same `(name, time)` on the same day
leaves exactly one event for that key; that event is taken and carries the
second call's `taken_time`; and the invariant still holds afterwards. -/
theorem mark_taken_upsert (h : List DoseEvent) (today : Int)
    (t1 t2 nm sc : String) (hinv : histInv h) :
    (mark_taken today t2 nm sc (mark_taken today t1 nm sc h)).countP
        (evKeyB today nm sc) = 1 ∧
    (mark_taken today t2 nm sc (mark_taken today t1 nm sc h)).countP
        (fun e => evKeyB today nm sc e && e.taken &&
          (e.taken_time == t2)) = 1 ∧
    histInv (mark_taken today t2 nm sc (mark_taken today t1 nm sc h)) := by
  have h0 : h.countP (evKeyB today nm sc) ≤ 1 := hinv today nm sc
  have h1self :
      (mark_taken today t1 nm sc h).countP (evKeyB today nm sc) = 1 := by
    rw [countP_mark_taken_self]
    split <;> omega
  refine ⟨?_, ?_, ?_⟩
  · rw [countP_mark_taken_self, h1self]
    norm_num
  · exact countP_mark_taken_key_taken today t2 nm sc _ (le_of_eq h1self)
  · exact histInv_mark_taken today t2 nm sc _
      (histInv_mark_taken today t1 nm sc h hinv)

/-- Concrete instance of claim C8: two `mark_taken` calls at 08:05 and
08:10 for the same key on an empty history leave exactly one event, taken
at 08:10. -/
theorem mark_taken_upsert_witness :
    (mark_taken 0 "08:10" "A" "08:00"
        (mark_taken 0 "08:05" "A" "08:00" [])).countP
      (evKeyB 0 "A" "08:00") = 1 ∧
    (mark_taken 0 "08:10" "A" "08:00"
        (mark_taken 0 "08:05" "A" "08:00" [])).countP
      (fun e => evKeyB 0 "A" "08:00" e && e.taken &&
        (e.taken_time == "08:10")) = 1 :=
  ⟨(mark_taken_upsert [] 0 "08:05" "08:10" "A" "08:00" histInv_nil).1,
   (mark_taken_upsert [] 0 "08:05" "08:10" "A" "08:00" histInv_nil).2.1⟩

/-! ### Claim C4 -/

/-- The source counts a medicine by filtering the history by date first and
matching on name/time/taken; the claim matches on all three fields at once.
Both counts agree. -/
lemma takenCount_eq_claim (meds : List Medicine) (history : List DoseEvent)
    (d : Int) :
    takenCount meds history d = takenCountClaim meds history d := by
  simp only [takenCount, takenCountClaim]
  congr 1
  funext s
  rw [List.any_filter]
  congr 1
  funext r
  simp [Bool.and_assoc]

/-- Claim C4: for a non-empty medicine list the weekly adherence computed
by the source — per-day ratios over the seven days ending today, summed,
divided by the number of days, times 100, rounded — equals the arithmetic
mean of the per-day percentages `matched/total × 100` over the same seven
days, rounded to one decimal. -/
theorem weekly_adherence_is_mean (meds : List Medicine)
    (history : List DoseEvent) (today : Int) (hne : meds ≠ []) :
    weeklyAdherence meds history today =
      weeklyAdherenceClaim meds history today := by
  simp only [weeklyAdherence, weeklyAdherenceClaim]
  rw [if_neg hne]
  have hmap : (List.range 7).map (fun i : Nat =>
      ((takenCountClaim meds history (today - 6 + (i : Int)) : ℚ) /
        (meds.length : ℚ)) * 100) =
      ((List.range 7).map (fun i : Nat => today - 6 + (i : Int))).map
        (fun d => ((takenCount meds history d : ℚ) /
          (meds.length : ℚ)) * 100) := by
    rw [List.map_map]
    apply List.map_congr_left
    intro i _
    simp only [Function.comp_apply, takenCount_eq_claim]
  rw [hmap, List.sum_map_mul_right]
  simp only [List.length_map, List.length_range]
  congr 1
  push_cast
  ring

/-- Concrete instance of claim C4 at one medicine and an empty history. -/
theorem weekly_adherence_is_mean_witness :
    ([{ id := 1, name := "Aspirin", sched_time := "08:00", notes := "" }] :
      List Medicine) ≠ [] ∧
    weeklyAdherence
        [{ id := 1, name := "Aspirin", sched_time := "08:00", notes := "" }]
        [] 0 =
      weeklyAdherenceClaim
        [{ id := 1, name := "Aspirin", sched_time := "08:00", notes := "" }]
        [] 0 :=
  ⟨by decide,
   weekly_adherence_is_mean
     [{ id := 1, name := "Aspirin", sched_time := "08:00", notes := "" }]
     [] 0 (by decide)⟩

/-! ### Claims C6 and C7 -/

/-- The projected instant of a medicine (0 when its time fails to parse;
that case is excluded wherever this value matters). -/
def projOf (now : Int) (med : Medicine) : Int :=
  match pyParseTime med.sched_time with
  | some p => projectInstant now p.1 p.2
  | none => 0

/-- The fold keeping the first minimum never increases the key. -/
lemma selFold_snd_le (xs : List (Medicine × Int)) (a : Medicine × Int) :
    (xs.foldl selStep a).2 ≤ a.2 := by
  induction xs generalizing a with
  | nil => simp
  | cons y ys ih =>
    simp only [List.foldl_cons]
    refine le_trans (ih (selStep a y)) ?_
    by_cases h : y.2 < a.2
    · simp only [selStep, if_pos h]
      omega
    · simp only [selStep, if_neg h]
      exact le_refl _

/-- The fold keeping the first minimum computes exactly what Python's
stable sort followed by taking the first element returns: the list splits
around the result, every element strictly before it has a strictly larger
key, and every element after it has a larger-or-equal key. -/
lemma selFold_split (xs : List (Medicine × Int)) (a : Medicine × Int) :
    ∃ l1 l2, a :: xs = l1 ++ (xs.foldl selStep a) :: l2 ∧
      (∀ y ∈ l1, (xs.foldl selStep a).2 < y.2) ∧
      (∀ y ∈ l2, (xs.foldl selStep a).2 ≤ y.2) := by
  induction xs generalizing a with
  | nil => exact ⟨[], [], by simp, by simp, by simp⟩
  | cons y ys ih =>
    simp only [List.foldl_cons]
    by_cases h : y.2 < a.2
    · rw [show selStep a y = y from if_pos h]
      obtain ⟨l1, l2, heq, h1, h2⟩ := ih y
      have hle : (ys.foldl selStep y).2 ≤ y.2 := selFold_snd_le ys y
      refine ⟨a :: l1, l2, ?_, ?_, h2⟩
      · rw [List.cons_append, ← heq]
      · intro z hz
        rcases List.mem_cons.mp hz with rfl | hz2
        · exact lt_of_le_of_lt hle h
        · exact h1 z hz2
    · rw [show selStep a y = a from if_neg h]
      obtain ⟨l1, l2, heq, h1, h2⟩ := ih a
      cases l1 with
      | nil =>
        simp only [List.nil_append] at heq
        injection heq with ha hl2
        refine ⟨[], y :: ys, ?_, by simp, ?_⟩
        · rw [List.nil_append, ← ha]
        · intro z hz
          rcases List.mem_cons.mp hz with rfl | hz2
          · rw [← ha]
            omega
          · exact h2 z (hl2 ▸ hz2)
      | cons w l1t =>
        rw [List.cons_append] at heq
        injection heq with haw hys
        subst haw
        refine ⟨a :: y :: l1t, l2, ?_, ?_, h2⟩
        · rw [List.cons_append, List.cons_append, ← hys]
        · intro z hz
          have hfa : (ys.foldl selStep a).2 < a.2 :=
            h1 a (List.mem_cons_self a l1t)
          rcases List.mem_cons.mp hz with rfl | hz2
          · exact hfa
          · rcases List.mem_cons.mp hz2 with rfl | hz3
            · exact lt_of_lt_of_le hfa (by omega)
            · exact h1 z (List.mem_cons_of_mem _ hz3)

/-- The fold keeping the first minimum returns an element of the list. -/
lemma selFold_mem (xs : List (Medicine × Int)) (a : Medicine × Int) :
    xs.foldl selStep a ∈ a :: xs := by
  obtain ⟨l1, l2, heq, -, -⟩ := selFold_split xs a
  rw [heq]
  exact List.mem_append_right _ (List.mem_cons_self _ _)

/-- When every scheduled time parses, the candidate list built by
`next_scheduled_dose` pairs every medicine with its projected instant. -/
lemma upcoming_eq_map (now : Int) (meds : List Medicine)
    (hall : ∀ m ∈ meds, (pyParseTime m.sched_time).isSome) :
    meds.filterMap (fun med => (pyParseTime med.sched_time).map
      (fun p => (med, projectInstant now p.1 p.2))) =
    meds.map (fun med => (med, projOf now med)) := by
  induction meds with
  | nil => rfl
  | cons m rest ih =>
    have hm := hall m (List.mem_cons_self m rest)
    obtain ⟨p, hp⟩ := Option.isSome_iff_exists.mp hm
    simp only [List.filterMap_cons, List.map_cons, hp, Option.map_some',
      ih (fun x hx => hall x (List.mem_cons_of_mem _ hx))]
    simp [projOf, hp]

/-- Claim C6 (amended): `next_scheduled_dose` returns `none` on an empty
medicine list, and also when no medicine's scheduled time parses as two
`:`-separated integers, since unparseable entries are skipped; when every
scheduled time parses, the medicine list splits around the returned
medicine: everything listed before it has a strictly later projected
instant and the returned instant is minimal over the whole list — i.e. the
first medicine attaining the minimum projected instant wins ties. -/
theorem next_dose_selection (now : Int) (meds : List Medicine) :
    next_scheduled_dose now ([] : List Medicine) = none ∧
    ((∀ m ∈ meds, pyParseTime m.sched_time = none) →
      next_scheduled_dose now meds = none) ∧
    (meds ≠ [] → (∀ m ∈ meds, (pyParseTime m.sched_time).isSome) →
      ∃ m pre post, meds = pre ++ m :: post ∧
        next_scheduled_dose now meds = some (m, projOf now m) ∧
        (∀ m2 ∈ pre, projOf now m < projOf now m2) ∧
        (∀ m2 ∈ meds, projOf now m ≤ projOf now m2)) := by
  refine ⟨rfl, ?_, ?_⟩
  · intro hnone
    have hnil : meds.filterMap (fun med => (pyParseTime med.sched_time).map
        (fun p => (med, projectInstant now p.1 p.2))) = [] :=
      List.filterMap_eq_nil_iff.mpr (fun m hm => by rw [hnone m hm]; rfl)
    simp only [next_scheduled_dose, hnil]
  · intro hne hall
    have hup := upcoming_eq_map now meds hall
    cases hmeds : meds with
    | nil => exact absurd hmeds hne
    | cons m0 rest =>
      subst hmeds
      simp only [List.map_cons] at hup
      have hres : next_scheduled_dose now (m0 :: rest) =
          some ((rest.map (fun med => (med, projOf now med))).foldl selStep
            (m0, projOf now m0)) := by
        simp only [next_scheduled_dose, hup]
      obtain ⟨l1, l2, heq, h1, h2⟩ :=
        selFold_split (rest.map (fun med => (med, projOf now med)))
          (m0, projOf now m0)
      have hsplit : (m0 :: rest).map (fun med => (med, projOf now med)) =
          l1 ++ ((rest.map (fun med => (med, projOf now med))).foldl selStep
            (m0, projOf now m0)) :: l2 := by
        rw [List.map_cons]
        exact heq
      obtain ⟨pre, rest2, hsplit2, hmap1, hmap2⟩ :=
        List.map_eq_append_iff.mp hsplit
      obtain ⟨m, post, hrest2, hgm, hmapl2⟩ :=
        List.map_eq_cons_iff.mp hmap2
      refine ⟨m, pre, post, by rw [hsplit2, hrest2], ?_, ?_, ?_⟩
      · rw [hres, ← hgm]
      · intro m2 hm2
        have hz : (m2, projOf now m2) ∈ l1 := by
          rw [← hmap1]
          exact List.mem_map_of_mem _ hm2
        have := h1 _ hz
        rw [← hgm] at this
        exact this
      · intro m2 hm2
        have hz : (m2, projOf now m2) ∈
            (m0 :: rest).map (fun med => (med, projOf now med)) :=
          List.mem_map_of_mem _ hm2
        rw [hsplit] at hz
        rcases List.mem_append.mp hz with hz1 | hz1
        · have := h1 _ hz1
          rw [← hgm] at this
          exact le_of_lt this
        · rcases List.mem_cons.mp hz1 with hz2 | hz2
          · rw [← hgm] at hz2
            have : projOf now m = projOf now m2 :=
              congrArg Prod.snd hz2.symm
            omega
          · have := h2 _ hz2
            rw [← hgm] at this
            exact this

/-- Counterexample to claim C6 as stated: a non-empty medicine list whose
only entry has an unparseable scheduled time makes `next_scheduled_dose`
return `none` instead of a medicine with a minimal projected instant. -/
theorem next_dose_selection_cex :
    ([{ id := 1, name := "A", sched_time := "soon", notes := "" }] :
      List Medicine) ≠ [] ∧
    next_scheduled_dose 0
      [{ id := 1, name := "A", sched_time := "soon", notes := "" }] =
      none := by
  refine ⟨by decide, by decide⟩

/-- Concrete instance of claim C6 (amended): the empty list gives `none`,
and so does a non-empty list none of whose times parses. -/
theorem next_dose_selection_witness :
    next_scheduled_dose 5 ([] : List Medicine) = none ∧
    next_scheduled_dose 5
      [{ id := 1, name := "A", sched_time := "bad", notes := "" }] =
      none :=
  ⟨(next_dose_selection 5 []).1,
   (next_dose_selection 5
      [{ id := 1, name := "A", sched_time := "bad", notes := "" }]).2.1
     (by decide)⟩

/-- Claim C7: when every scheduled time is a valid `HH:MM`, the instant
returned by `next_scheduled_dose` is never before the reference instant
(today's slot wraps to tomorrow once it has passed), and it equals the
reference instant only when the reference instant is exactly the returned
medicine's scheduled instant today. -/
theorem next_dose_ge_now (now : Int) (meds : List Medicine)
    (m : Medicine) (dt : Int)
    (hv : ∀ m2 ∈ meds, validHHMM m2.sched_time)
    (hr : next_scheduled_dose now meds = some (m, dt)) :
    now ≤ dt ∧ (dt = now → ∃ hh mm,
      pyParseTime m.sched_time = some (hh, mm) ∧
        now = today_dt now hh mm) := by
  have hmem : (m, dt) ∈ meds.filterMap
      (fun med => (pyParseTime med.sched_time).map
        (fun p => (med, projectInstant now p.1 p.2))) := by
    simp only [next_scheduled_dose] at hr
    cases hlist : meds.filterMap (fun med => (pyParseTime med.sched_time).map
        (fun p => (med, projectInstant now p.1 p.2))) with
    | nil =>
      rw [hlist] at hr
      cases hr
    | cons x xs =>
      rw [hlist] at hr
      have heq := Option.some.inj hr
      rw [← heq]
      exact selFold_mem xs x
  obtain ⟨med, hmed, hfmed⟩ := List.mem_filterMap.mp hmem
  obtain ⟨hh, mm, hp, hb1, hb2, hb3, hb4⟩ := hv med hmed
  rw [hp, Option.map_some'] at hfmed
  obtain ⟨hmedm, hdt⟩ := Prod.mk.injEq .. ▸ Option.some.inj hfmed
  subst hmedm
  have hmod1 : 0 ≤ now.emod 1440 := Int.emod_nonneg now (by norm_num)
  have hmod2 : now.emod 1440 < 1440 := Int.emod_lt_of_pos now (by norm_num)
  have hmod3 : now.ediv 1440 * 1440 + now.emod 1440 = now := by
    rw [mul_comm]
    exact Int.ediv_add_emod now 1440
  constructor
  · rw [← hdt]
    simp only [projectInstant, today_dt]
    split
    · omega
    · omega
  · intro hdteq
    refine ⟨hh, mm, hp, ?_⟩
    rw [← hdt] at hdteq
    simp only [projectInstant, today_dt] at hdteq
    simp only [today_dt]
    split at hdteq
    · omega
    · omega

/-- Concrete instance of claim C7: Aspirin at 08:00 with the clock at
08:10 of day 0 (instant 490) projects to tomorrow 08:00 (instant 1920),
which is not before the reference instant. -/
theorem next_dose_ge_now_witness :
    next_scheduled_dose 490
      [{ id := 1, name := "Aspirin", sched_time := "08:00", notes := "" }] =
      some ({ id := 1, name := "Aspirin", sched_time := "08:00",
              notes := "" }, 1920) ∧
    (490 : Int) ≤ 1920 :=
  ⟨by decide,
   (next_dose_ge_now 490
      [{ id := 1, name := "Aspirin", sched_time := "08:00", notes := "" }]
      { id := 1, name := "Aspirin", sched_time := "08:00", notes := "" }
      1920
      (fun m2 hm2 => by
        rw [List.mem_singleton] at hm2
        subst hm2
        exact ⟨8, 0, by decide, by decide, by decide, by decide, by decide⟩)
      (by decide)).1⟩
